import Mathlib

set_option maxHeartbeats 1000000

/-
  Verification development for the loss functions of `src/utils/losses.py`
  (SimCLR_TT_Loss, BYOL_TT_Loss, VICReg_TT_Loss).

  Tensors are shallowly embedded: a 2-D float tensor becomes either a
  `List (List ℝ)` (rows of samples; used where shape errors matter and for
  the flatten/view reshaping tricks) or a function `Fin n → Fin d → ℝ`
  (used for the closed-form VICReg / BYOL arithmetic).  Real numbers stand
  in for floats, `Real.sqrt`, `Real.exp`, `Real.log` for the torch
  intrinsics, and fallible tensor operations return `Except ShapeError _`.
-/

namespace Losses

noncomputable section

/-- torch `Tensor.view(rows, cols)` on a flat tensor: splits the flat list
into `rows` consecutive chunks of `cols` elements each. -/
def viewRows {α : Type} (rows cols : Nat) (l : List α) : List (List α) :=
  match rows with
  | 0 => []
  | r + 1 => l.take cols :: viewRows r cols (l.drop cols)

namespace VICReg_TT_Loss

/-- Embedding of `VICReg_TT_Loss.off_diagonal`: for a square matrix `x`
given as its list of `n` rows, computes
`x.flatten()[:-1].view(n - 1, n + 1)[:, 1:].flatten()`. -/
def off_diagonal {α : Type} (x : List (List α)) : List α :=
  ((viewRows (x.length - 1) (x.length + 1) x.flatten.dropLast).map
      (fun r => r.drop 1)).flatten

end VICReg_TT_Loss

/-- Generalization (by starting row index `i`) of the spec-side off-diagonal
description: row `i` contributes all its entries except the one in column
`i`, in row-major order. -/
def specTail {α : Type} : Nat → List (List α) → List α
  | _, [] => []
  | i, r :: rs => (r.take i ++ r.drop (i + 1)) ++ specTail (i + 1) rs

/-- Modelled from the spec (refinement target for `off_diagonal`):
"all elements except the (i==j) entries, in row-major order". -/
def specOffDiagonal {α : Type} (x : List (List α)) : List α := specTail 0 x

/-- Configuration constants read from the external `config` module. -/
structure Config where
  N_negative : Nat
  BATCH_SIZE : Nat
  HIDDEN_DIM : Nat
  VICREG_SIM_COEFF : ℝ
  VICREG_STD_COEFF : ℝ
  VICREG_COV_COEFF : ℝ

/-- Shape errors raised by the embedded tensor operations. -/
inductive ShapeError : Type
  | shapeMismatch
deriving DecidableEq

namespace SimCLR_TT_Loss

/-- In-place write `m[a, b] = 0` on a boolean tensor viewed as a function. -/
def setZero (m : Nat → Nat → Bool) (a b : Nat) : Nat → Nat → Bool :=
  fun i j => if i = a ∧ j = b then false else m i j

/-- State of the mask tensor built by `mask_correlated_samples`: all ones,
then `fill_diagonal_(0)`, then for each `i < batch_size` the writes
`mask[i, batch_size + i] = 0` and `mask[batch_size + i, i] = 0`. -/
def maskFun (batch_size : Nat) : Nat → Nat → Bool :=
  (List.range batch_size).foldl
    (fun m i => setZero (setZero m i (batch_size + i)) (batch_size + i) i)
    (fun i j => if i = j then false else true)

/-- Embedding of `SimCLR_TT_Loss.mask_correlated_samples`: the
`[2 * batch_size, 2 * batch_size]` boolean tensor. -/
def mask_correlated_samples (batch_size : Nat) :
    Matrix (Fin (2 * batch_size)) (Fin (2 * batch_size)) Bool :=
  fun i j => maskFun batch_size i j

/-- Feature width (size of dim 1) of a 2-D tensor given as a list of rows. -/
def width (t : List (List ℝ)) : Nat := (t.headD []).length

/-- torch.cat(dim=0): checks that the non-concatenated dimension matches. -/
def tcat (a b : List (List ℝ)) : Except ShapeError (List (List ℝ)) :=
  if width a = width b then .ok (a ++ b) else .error .shapeMismatch

/-- Elementwise division of a matrix by the temperature scalar. -/
def scaleDiv (m : List (List ℝ)) (t : ℝ) : List (List ℝ) :=
  m.map (fun r => r.map (fun v => v / t))

/-- torch.diag(m, k) for k ≥ 0: the diagonal offset k above the main one. -/
def tdiag (m : List (List ℝ)) (k : Nat) : List ℝ :=
  (List.range (m.length - k)).map (fun i => (m.getD i []).getD (i + k) 0)

/-- torch.diag(m, -k) for k ≥ 0: the diagonal offset k below the main one. -/
def tdiagNeg (m : List (List ℝ)) (k : Nat) : List ℝ :=
  (List.range (m.length - k)).map (fun i => (m.getD (i + k) []).getD i 0)

/-- Reshape of a flat vector to (N, 1): errors unless the count is N. -/
def reshapeCol (v : List ℝ) (N : Nat) : Except ShapeError (List (List ℝ)) :=
  if v.length = N then .ok (v.map (fun a => [a])) else .error .shapeMismatch

/-- Boolean mask indexing `m[mask]` with an (sz × sz) mask: requires `m`
to have the same shape as the mask, then returns the selected entries
flattened in row-major order. -/
def maskSelect (m : List (List ℝ)) (mask : Nat → Nat → Bool) (sz : Nat) :
    Except ShapeError (List ℝ) :=
  if m.length = sz ∧ ∀ r ∈ m, r.length = sz then
    .ok ((List.range sz).map
      (fun i => ((List.range sz).filter (fun j => mask i j)).map
        (fun j => (m.getD i []).getD j 0))).flatten
  else .error .shapeMismatch

/-- Reshape of a flat vector to (N, -1): torch infers the second dimension,
erroring when the count is zero (the -1 is then ambiguous) or not divisible
by N. -/
def reshapeRows (v : List ℝ) (N : Nat) : Except ShapeError (List (List ℝ)) :=
  if 0 < v.length ∧ N ∣ v.length then .ok (viewRows N (v.length / N) v)
  else .error .shapeMismatch

/-- torch.take_along_dim(m, idx, dim=1) where row `i` of `idx` is `perms i`
(in the source: the argsort of a fresh uniform random tensor, i.e. a random
permutation of each row, supplied here by the caller as the random source). -/
def takeAlong (perms : Nat → List Nat) (m : List (List ℝ)) : List (List ℝ) :=
  m.enum.map (fun p => (perms p.1).map (fun k => p.2.getD k 0))

/-- Column truncation `m[:, :c]`. -/
def truncCols (m : List (List ℝ)) (c : Nat) : List (List ℝ) :=
  m.map (fun r => r.take c)

/-- torch.cat(dim=1): checks that the row counts match. -/
def catCols (a b : List (List ℝ)) : Except ShapeError (List (List ℝ)) :=
  if a.length = b.length then .ok (a.zipWith (fun r s => r ++ s) b)
  else .error .shapeMismatch

/-- nn.CrossEntropyLoss on one logits row with label 0:
`-log softmax(row)[0] = log (Σ_j exp row_j) - row_0`. -/
def rowCE (row : List ℝ) : ℝ :=
  Real.log (row.map Real.exp).sum - row.getD 0 0

/-- nn.CrossEntropyLoss(reduction="sum") against the all-zero label. -/
def criterion (lg : List (List ℝ)) : ℝ := (lg.map rowCE).sum

/-- Embedding of `SimCLR_TT_Loss.forward` up to the logits tensor.
`simf` is the similarity function injected at construction; `perms`
supplies the per-row random permutations of the subsampling branch. -/
def logits (cfg : Config) (batch_size : Nat) (temperature : ℝ)
    (simf : List (List ℝ) → List (List ℝ) → List (List ℝ))
    (perms : Nat → List Nat) (x x_pair : List (List ℝ)) :
    Except ShapeError (List (List ℝ)) := do
  let N := 2 * batch_size
  let z ← tcat x x_pair
  let sim := scaleDiv (simf z z) temperature
  let sim_i_j := tdiag sim batch_size
  let sim_j_i := tdiagNeg sim batch_size
  let positive_samples ← reshapeCol (sim_i_j ++ sim_j_i) N
  let negFlat ← maskSelect sim (maskFun batch_size) N
  let negative_samples ← reshapeRows negFlat N
  let negative_samples :=
    if cfg.N_negative ≠ 0 then
      truncCols (takeAlong perms negative_samples) cfg.N_negative
    else negative_samples
  catCols positive_samples negative_samples

/-- Embedding of `SimCLR_TT_Loss.forward`. -/
def forward (cfg : Config) (batch_size : Nat) (temperature : ℝ)
    (simf : List (List ℝ) → List (List ℝ) → List (List ℝ))
    (perms : Nat → List Nat) (x x_pair : List (List ℝ)) :
    Except ShapeError ℝ := do
  let lg ← logits cfg batch_size temperature simf perms x x_pair
  return criterion lg / (2 * batch_size : ℝ)

/-- A concrete injected similarity function: the pairwise dot products of
the rows of the two batches. -/
def dotSim (a b : List (List ℝ)) : List (List ℝ) :=
  a.map (fun r => b.map (fun s => (r.zipWith (fun u v => u * v) s).sum))

/-- Row `i` of the negative-samples tensor before subsampling: the entries
of row `i` of `sim` selected by the mask row (proof helper naming the
rows of `sim[self.mask].reshape(N, -1)`). -/
def negRow (bs : Nat) (sim : List (List ℝ)) (i : Nat) : List ℝ :=
  ((List.range (2 * bs)).filter (fun j => maskFun bs i j)).map
    (fun j => (sim.getD i []).getD j 0)

/-- Concrete 3×1 and 1×1 input batches whose row counts differ but sum to
2 · batch_size for batch_size 2. -/
def xC8 : List (List ℝ) := [[1], [0], [0]]

/-- See `xC8`. -/
def xpC8 : List (List ℝ) := [[0]]

/-- Configuration with the negative-sample cap disabled. -/
def cfgC8 : Config := ⟨0, 2, 1, 0, 0, 0⟩

/-- Concrete 2×1 batch used as both inputs of the SimCLR witnesses. -/
def xC1 : List (List ℝ) := [[1], [1]]

/-- Configuration whose negative-sample cap (3) exceeds the 2·2 − 2 = 2
available negatives at batch_size 2. -/
def cfgC9 : Config := ⟨3, 2, 1, 0, 0, 0⟩

end SimCLR_TT_Loss

/-- Embedding of the `BYOL_TT_Loss` module state: it stores the injected
similarity function (of arbitrary type `S`) and nothing else. -/
structure BYOL_TT_Loss (S : Type) where
  sim_func : S

/-- Row-wise L2 norm of a vector. -/
def rowNorm {d : Nat} (v : Fin d → ℝ) : ℝ := Real.sqrt (∑ j, v j ^ 2)

/-- F.normalize(x, dim=-1, p=2): divides each row by
`max(‖row‖₂, eps)` with the library default `eps = 1e-12`. -/
def normalizeRows {n d : Nat} (x : Fin n → Fin d → ℝ) : Fin n → Fin d → ℝ :=
  fun i j => x i j / max (rowNorm (x i)) 1e-12

/-- Embedding of `BYOL_TT_Loss.forward`: the per-sample tensor
`2 - 2 * (x * x_pair).sum(dim=-1)` of the two normalized batches. -/
def BYOL_TT_Loss.forward {S : Type} (_self : BYOL_TT_Loss S) {n d : Nat}
    (x x_pair : Fin n → Fin d → ℝ) : Fin n → ℝ :=
  fun i => 2 - 2 * ∑ j, normalizeRows x i j * normalizeRows x_pair i j

namespace VICReg_TT_Loss

/-- F.mse_loss with the default mean reduction. -/
def mse_loss {n d : Nat} (x y : Fin n → Fin d → ℝ) : ℝ :=
  (∑ i, ∑ j, (x i j - y i j) ^ 2) / ((n : ℝ) * (d : ℝ))

/-- `x.mean(dim=0)`. -/
def colMean {n d : Nat} (x : Fin n → Fin d → ℝ) (j : Fin d) : ℝ :=
  (∑ i, x i j) / (n : ℝ)

/-- `x - x.mean(dim=0)`. -/
def center {n d : Nat} (x : Fin n → Fin d → ℝ) : Fin n → Fin d → ℝ :=
  fun i j => x i j - colMean x j

/-- torch `Tensor.var(dim=0)` (unbiased, divisor n−1). -/
def varCol {n d : Nat} (x : Fin n → Fin d → ℝ) (j : Fin d) : ℝ :=
  (∑ i, (x i j - colMean x j) ^ 2) / ((n : ℝ) - 1)

/-- `torch.sqrt(x.var(dim=0) + 0.0001)`. -/
def stdCol {n d : Nat} (x : Fin n → Fin d → ℝ) (j : Fin d) : ℝ :=
  Real.sqrt (varCol x j + 0.0001)

/-- The variance (hinge) term of the forward pass, on the centered batches:
`torch.mean(F.relu(1 - std_x)) / 2 + torch.mean(F.relu(1 - std_y)) / 2`. -/
def std_loss_of {n d : Nat} (xc yc : Fin n → Fin d → ℝ) : ℝ :=
  (∑ j, max (1 - stdCol xc j) 0) / (d : ℝ) / 2
    + (∑ j, max (1 - stdCol yc j) 0) / (d : ℝ) / 2

/-- `(x.T @ x) / (config.BATCH_SIZE - 1)` on the centered batch. -/
def covMat (cfg : Config) {n d : Nat} (xc : Fin n → Fin d → ℝ) :
    Fin d → Fin d → ℝ :=
  fun j k => (∑ i, xc i j * xc i k) / ((cfg.BATCH_SIZE : ℝ) - 1)

/-- Materializes a `Fin d → Fin d → ℝ` matrix as its list of rows, the form
consumed by the list-based `off_diagonal`. -/
def matToLists {d : Nat} (m : Fin d → Fin d → ℝ) : List (List ℝ) :=
  List.ofFn (fun i => List.ofFn (fun j => m i j))

/-- `off_diagonal(cov_x).pow_(2).sum().div(HIDDEN_DIM) + ...` for both
centered batches. -/
def cov_loss_of (cfg : Config) {n d : Nat} (xc yc : Fin n → Fin d → ℝ) : ℝ :=
  ((off_diagonal (matToLists (covMat cfg xc))).map (fun v => v ^ 2)).sum
      / (cfg.HIDDEN_DIM : ℝ)
    + ((off_diagonal (matToLists (covMat cfg yc))).map (fun v => v ^ 2)).sum
      / (cfg.HIDDEN_DIM : ℝ)

/-- Embedding of `VICReg_TT_Loss.forward`. -/
def forward (cfg : Config) {n d : Nat} (x y : Fin n → Fin d → ℝ) : ℝ :=
  cfg.VICREG_SIM_COEFF * mse_loss x y
    + cfg.VICREG_STD_COEFF * std_loss_of (center x) (center y)
    + cfg.VICREG_COV_COEFF * cov_loss_of cfg (center x) (center y)

end VICReg_TT_Loss

/-- Modelled from the spec (refinement target for the covariance term):
half of the spec's covariance term for one batch — covariance matrix
`Xᵀ·X / (batch_size − 1)` with the actual batch size `n`, sum of squared
off-diagonal entries normalized by the actual feature dimension `d`. -/
def specCovHalf {n d : Nat} (xc : Fin n → Fin d → ℝ) : ℝ :=
  (∑ j, ∑ k,
      if j = k then 0
      else ((∑ i, xc i j * xc i k) / ((n : ℝ) - 1)) ^ 2) / (d : ℝ)

/-- Modelled from the spec: the full covariance term, summed over both
(centered) batches. -/
def specCovTerm {n d : Nat} (xc yc : Fin n → Fin d → ℝ) : ℝ :=
  specCovHalf xc + specCovHalf yc

/-- Applies a permutation of the sample axis to a batch. -/
def permRows {n d : Nat} (π : Equiv.Perm (Fin n)) (x : Fin n → Fin d → ℝ) :
    Fin n → Fin d → ℝ :=
  fun i j => x (π i) j

/-- Diagonal entries of a list-of-rows matrix, read from column `i` on
(proof helper for summing over `specTail`). -/
def diagFrom : Nat → List (List ℝ) → List ℝ
  | _, [] => []
  | i, r :: rs => r.getD i 0 :: diagFrom (i + 1) rs

/-- Concrete configuration whose BATCH_SIZE (3) differs from the actual
batch dimension of `xC10` (2). -/
def cfgC10 : Config := ⟨0, 3, 2, 1, 1, 1⟩

/-- Concrete 2×2 batch with perfectly correlated features: rows (1, 1)
and (−1, −1). -/
def xC10 : Fin 2 → Fin 2 → ℝ := fun i _ => if (i : Nat) = 0 then 1 else -1

/-- Concrete all-zero 2×2 batch. -/
def yC10 : Fin 2 → Fin 2 → ℝ := fun _ _ => 0

/-- Concrete configuration for the VICReg zero-batch scenario:
BATCH_SIZE = 2, HIDDEN_DIM = 1, coefficients (25, 25, 1). -/
def cfgC3 : Config := ⟨0, 2, 1, 25, 25, 1⟩

/-- Concrete 1×1 batch whose single row is non-zero but has L2 norm
1e-13, below the 1e-12 eps of F.normalize. -/
def xC5 : Fin 1 → Fin 1 → ℝ := fun _ _ => 1e-13

namespace SimCLR_TT_Loss

theorem foldl_mask_spec (bs : Nat) (l : List Nat) (m : Nat → Nat → Bool)
    (i j : Nat) :
    (l.foldl (fun m' k => setZero (setZero m' k (bs + k)) (bs + k) k) m) i j
      = if ∃ k ∈ l, (i = k ∧ j = bs + k) ∨ (i = bs + k ∧ j = k) then false
        else m i j := by
  induction l generalizing m with
  | nil => simp
  | cons a l ih =>
    rw [List.foldl_cons, ih]
    by_cases hP : (i = a ∧ j = bs + a) ∨ (i = bs + a ∧ j = a)
    · have hex : ∃ k ∈ a :: l, (i = k ∧ j = bs + k) ∨ (i = bs + k ∧ j = k) :=
        ⟨a, by simp, hP⟩
      rw [if_pos hex]
      by_cases h1 : ∃ k ∈ l, (i = k ∧ j = bs + k) ∨ (i = bs + k ∧ j = k)
      · rw [if_pos h1]
      · rw [if_neg h1]
        simp only [setZero]
        rcases hP with ⟨hi, hj⟩ | ⟨hi, hj⟩
        · by_cases houter : i = bs + a ∧ j = a
          · rw [if_pos houter]
          · rw [if_neg houter, if_pos ⟨hi, hj⟩]
        · rw [if_pos ⟨hi, hj⟩]
    · have hiff : (∃ k ∈ a :: l, (i = k ∧ j = bs + k) ∨ (i = bs + k ∧ j = k))
          ↔ (∃ k ∈ l, (i = k ∧ j = bs + k) ∨ (i = bs + k ∧ j = k)) := by
        constructor
        · rintro ⟨k, hk, hPk⟩
          rcases List.mem_cons.mp hk with rfl | hk'
          · exact absurd hPk hP
          · exact ⟨k, hk', hPk⟩
        · rintro ⟨k, hk, hPk⟩
          exact ⟨k, List.mem_cons_of_mem a hk, hPk⟩
      by_cases h1 : ∃ k ∈ l, (i = k ∧ j = bs + k) ∨ (i = bs + k ∧ j = k)
      · rw [if_pos h1, if_pos (hiff.mpr h1)]
      · rw [if_neg h1, if_neg (fun hc => h1 (hiff.mp hc))]
        simp only [setZero]
        rw [if_neg (fun hc => hP (Or.inr hc)), if_neg (fun hc => hP (Or.inl hc))]

theorem maskFun_eq (bs i j : Nat) :
    maskFun bs i j
      = if ∃ k ∈ List.range bs, (i = k ∧ j = bs + k) ∨ (i = bs + k ∧ j = k)
        then false
        else if i = j then false else true := by
  rw [maskFun, foldl_mask_spec]

theorem mod_partner (bs i : Nat) (hi : i < 2 * bs) :
    (i + bs) % (2 * bs) = if i < bs then i + bs else i - bs := by
  by_cases h : i < bs
  · rw [if_pos h, Nat.mod_eq_of_lt (by omega)]
  · rw [if_neg h]
    have h2 : i + bs = i - bs + 1 * (2 * bs) := by omega
    rw [h2, Nat.add_mul_mod_self_right, Nat.mod_eq_of_lt (by omega)]

theorem maskFun_false_iff (bs i j : Nat) (hi : i < 2 * bs) (hj : j < 2 * bs) :
    (maskFun bs i j = false) ↔ (i = j ∨ j = (i + bs) % (2 * bs)) := by
  have hbs : 0 < bs := by omega
  rw [maskFun_eq, mod_partner bs i hi]
  by_cases hex : ∃ k ∈ List.range bs, (i = k ∧ j = bs + k) ∨ (i = bs + k ∧ j = k)
  · rw [if_pos hex]
    simp only [true_iff]
    obtain ⟨k, hk, hPk⟩ := hex
    have hklt : k < bs := List.mem_range.mp hk
    rcases hPk with ⟨rfl, rfl⟩ | ⟨rfl, rfl⟩
    · right; rw [if_pos hklt]; omega
    · right; rw [if_neg (by omega)]; omega
  · rw [if_neg hex]
    constructor
    · intro hf
      by_cases hij : i = j
      · exact Or.inl hij
      · rw [if_neg hij] at hf; exact absurd hf (by simp)
    · intro hor
      rcases hor with rfl | hpart
      · rw [if_pos rfl]
      · exfalso
        apply hex
        by_cases hlt : i < bs
        · rw [if_pos hlt] at hpart
          exact ⟨i, List.mem_range.mpr hlt, Or.inl ⟨rfl, by omega⟩⟩
        · rw [if_neg hlt] at hpart
          exact ⟨i - bs, List.mem_range.mpr (by omega), Or.inr ⟨by omega, by omega⟩⟩

theorem maskFun_symm (bs i j : Nat) (hi : i < 2 * bs) (hj : j < 2 * bs) :
    maskFun bs i j = maskFun bs j i := by
  have hbs : 0 < bs := by omega
  have h1 := maskFun_false_iff bs i j hi hj
  have h2 := maskFun_false_iff bs j i hj hi
  have hcond : (i = j ∨ j = (i + bs) % (2 * bs))
      ↔ (j = i ∨ i = (j + bs) % (2 * bs)) := by
    rw [mod_partner bs i hi, mod_partner bs j hj]
    by_cases hlt : i < bs <;> by_cases hlt' : j < bs <;>
      simp only [if_pos, if_neg, hlt, hlt', if_true, if_false] <;> omega
  cases hm : maskFun bs i j with
  | false => exact (h2.mpr (hcond.mp (h1.mp hm))).symm
  | true =>
    cases hm' : maskFun bs j i with
    | false =>
      exact absurd (h1.mpr (hcond.mpr (h2.mp hm'))) (by simp [hm])
    | true => rfl

theorem card_filter_pair (n a b : Nat) (hab : a ≠ b) (ha : a < n) (hb : b < n) :
    ((Finset.range n).filter (fun j => j = a ∨ j = b)).card = 2 := by
  rw [Finset.filter_or, Finset.filter_eq', Finset.filter_eq',
    if_pos (Finset.mem_range.mpr ha), if_pos (Finset.mem_range.mpr hb),
    Finset.card_union_of_disjoint (Finset.disjoint_singleton.mpr hab)]
  rfl

/-- Each row of the boolean mask selects exactly 2N − 2 entries. -/
theorem filter_mask_length (bs i : Nat) (hi : i < 2 * bs) :
    ((List.range (2 * bs)).filter (fun j => maskFun bs i j)).length
      = 2 * bs - 2 := by
  have hbs : 0 < bs := by omega
  have hPlt : (i + bs) % (2 * bs) < 2 * bs := Nat.mod_lt _ (by omega)
  have hPne : (i + bs) % (2 * bs) ≠ i := by
    rw [mod_partner bs i hi]
    split <;> omega
  have hpair : ((List.range (2 * bs)).filter
      (fun j => decide (j = i ∨ j = (i + bs) % (2 * bs)))).length = 2 := by
    have hbridge : ((Finset.range (2 * bs)).filter
        (fun j => j = i ∨ j = (i + bs) % (2 * bs))).card
        = ((List.range (2 * bs)).filter
            (fun j => decide (j = i ∨ j = (i + bs) % (2 * bs)))).length := rfl
    rw [← hbridge, card_filter_pair (2 * bs) i ((i + bs) % (2 * bs))
      (fun h => hPne h.symm) hi hPlt]
  have hsplit := List.length_eq_countP_add_countP
    (fun j => decide (j = i ∨ j = (i + bs) % (2 * bs))) (List.range (2 * bs))
  rw [List.countP_eq_length_filter, List.countP_eq_length_filter, hpair,
    List.length_range] at hsplit
  have hmain : ((List.range (2 * bs)).filter (fun j => maskFun bs i j)).length
      = ((List.range (2 * bs)).filter
          (fun a => decide
            (¬(decide (a = i ∨ a = (i + bs) % (2 * bs)) = true)))).length := by
    rw [← List.countP_eq_length_filter, ← List.countP_eq_length_filter]
    apply List.countP_congr
    intro j hj
    have hjlt : j < 2 * bs := List.mem_range.mp hj
    have hiff := maskFun_false_iff bs i j hi hjlt
    simp only [decide_eq_true_eq]
    constructor
    · intro ht hor
      have hf : maskFun bs i j = false := by
        apply hiff.mpr
        rcases hor with h | h
        · exact Or.inl h.symm
        · exact Or.inr h
      rw [ht] at hf
      simp at hf
    · intro hnot
      cases hm : maskFun bs i j with
      | false =>
        exfalso
        apply hnot
        rcases hiff.mp hm with h | h
        · exact Or.inl h.symm
        · exact Or.inr h
      | true => rfl
  rw [hmain]
  omega

end SimCLR_TT_Loss

theorem getD_map_range {β : Type} (n : Nat) (f : Nat → β) (i : Nat)
    (h : i < n) (dflt : β) :
    ((List.range n).map f).getD i dflt = f i := by
  rw [List.getD_eq_getElem?_getD, List.getElem?_map, List.getElem?_range h]
  rfl

theorem map_getD_range {α : Type} (l : List α) (d : α) :
    (List.range l.length).map (fun k => l.getD k d) = l := by
  apply List.ext_getElem
  · simp
  · intro i h1 h2
    simp only [List.getElem_map, List.getElem_range]
    rw [List.getD_eq_getElem?_getD, List.getElem?_eq_getElem h2]
    rfl

theorem viewRows_flatten {α : Type} :
    ∀ (L : List (List α)) (n c : Nat), L.length = n →
    (∀ r ∈ L, r.length = c) → viewRows n c L.flatten = L := by
  intro L
  induction L with
  | nil =>
    intro n c hn _
    rw [← hn]
    rfl
  | cons r rs ih =>
    intro n c hn hlen
    have hr : r.length = c := hlen r (by simp)
    rw [← hn]
    show viewRows (rs.length + 1) c (r ++ rs.flatten) = r :: rs
    rw [viewRows, ← hr, List.take_left, List.drop_left, hr,
      ih rs.length c rfl (fun s hs => hlen s (by simp [hs]))]

theorem flatten_length_const {α : Type} :
    ∀ (L : List (List α)) (c : Nat), (∀ r ∈ L, r.length = c) →
    L.flatten.length = L.length * c := by
  intro L
  induction L with
  | nil => intro c _; simp
  | cons r rs ih =>
    intro c h
    simp only [List.flatten_cons, List.length_append, List.length_cons]
    rw [h r (by simp), ih c (fun s hs => h s (by simp [hs])), Nat.succ_mul]
    omega

namespace SimCLR_TT_Loss

theorem scaleDiv_length (m : List (List ℝ)) (t : ℝ) :
    (scaleDiv m t).length = m.length := by
  simp [scaleDiv]

theorem scaleDiv_rows (m : List (List ℝ)) (t : ℝ) (c : Nat)
    (h : ∀ r ∈ m, r.length = c) : ∀ r ∈ scaleDiv m t, r.length = c := by
  intro r hr
  rw [scaleDiv, List.mem_map] at hr
  obtain ⟨s, hs, rfl⟩ := hr
  simp [h s hs]

theorem takeAlong_length (perms : Nat → List Nat) (M : List (List ℝ)) :
    (takeAlong perms M).length = M.length := by
  simp [takeAlong]

theorem takeAlong_getD (perms : Nat → List Nat) (M : List (List ℝ)) (i : Nat)
    (h : i < M.length) :
    (takeAlong perms M).getD i []
      = (perms i).map (fun k => (M.getD i []).getD k 0) := by
  have hM : M.getD i [] = M[i] := by
    rw [List.getD_eq_getElem?_getD, List.getElem?_eq_getElem h]
    rfl
  rw [hM, takeAlong, List.getD_eq_getElem?_getD, List.getElem?_map,
    List.getElem?_enum, List.getElem?_eq_getElem h]
  rfl

/-- Successful evaluation of the logits pipeline: when the widths of the
two inputs agree, their row counts sum to 2 · batch_size with
batch_size ≥ 2, and the similarity function returns a (2bs)×(2bs) matrix
on the concatenated batch, every shape check passes and the logits tensor
is the positive-similarity column prepended to the (possibly permuted and
truncated) negative rows. -/
theorem logits_ok (cfg : Config) (bs : Nat) (temp : ℝ)
    (simf : List (List ℝ) → List (List ℝ) → List (List ℝ))
    (perms : Nat → List Nat) (x x_pair : List (List ℝ))
    (hw : width x = width x_pair)
    (hz : x.length + x_pair.length = 2 * bs)
    (hsl : (simf (x ++ x_pair) (x ++ x_pair)).length = 2 * bs)
    (hsr : ∀ r ∈ simf (x ++ x_pair) (x ++ x_pair), r.length = 2 * bs)
    (hbs : 2 ≤ bs) :
    logits cfg bs temp simf perms x x_pair
      = .ok (List.zipWith (fun p r => p ++ r)
          ((tdiag (scaleDiv (simf (x ++ x_pair) (x ++ x_pair)) temp) bs
            ++ tdiagNeg (scaleDiv (simf (x ++ x_pair) (x ++ x_pair)) temp) bs).map
              (fun a => [a]))
          (if cfg.N_negative ≠ 0 then
            truncCols (takeAlong perms ((List.range (2 * bs)).map
              (negRow bs (scaleDiv (simf (x ++ x_pair) (x ++ x_pair)) temp))))
              cfg.N_negative
          else
            (List.range (2 * bs)).map
              (negRow bs (scaleDiv (simf (x ++ x_pair) (x ++ x_pair)) temp)))) := by
  set sim := scaleDiv (simf (x ++ x_pair) (x ++ x_pair)) temp with hsim
  have hsl' : sim.length = 2 * bs := by rw [hsim, scaleDiv_length, hsl]
  have hsr' : ∀ r ∈ sim, r.length = 2 * bs := scaleDiv_rows _ _ _ hsr
  have h1 : tcat x x_pair = .ok (x ++ x_pair) := by rw [tcat, if_pos hw]
  have hdlen : (tdiag sim bs ++ tdiagNeg sim bs).length = 2 * bs := by
    simp only [tdiag, tdiagNeg, List.length_append, List.length_map,
      List.length_range, hsl']
    omega
  have h2 : reshapeCol (tdiag sim bs ++ tdiagNeg sim bs) (2 * bs)
      = .ok ((tdiag sim bs ++ tdiagNeg sim bs).map (fun a => [a])) := by
    rw [reshapeCol, if_pos hdlen]
  have h3 : maskSelect sim (maskFun bs) (2 * bs)
      = .ok (((List.range (2 * bs)).map (negRow bs sim)).flatten) := by
    rw [maskSelect, if_pos ⟨hsl', hsr'⟩]
    rfl
  have hrows : ∀ r ∈ (List.range (2 * bs)).map (negRow bs sim),
      r.length = 2 * bs - 2 := by
    intro r hr
    rw [List.mem_map] at hr
    obtain ⟨i, hi, rfl⟩ := hr
    rw [negRow, List.length_map, filter_mask_length bs i (List.mem_range.mp hi)]
  have hflat : (((List.range (2 * bs)).map (negRow bs sim)).flatten).length
      = (2 * bs) * (2 * bs - 2) := by
    rw [flatten_length_const _ _ hrows, List.length_map, List.length_range]
  have h4 : reshapeRows (((List.range (2 * bs)).map (negRow bs sim)).flatten)
      (2 * bs) = .ok ((List.range (2 * bs)).map (negRow bs sim)) := by
    have hpos : 0 < (((List.range (2 * bs)).map (negRow bs sim)).flatten).length := by
      rw [hflat]
      exact Nat.mul_pos (by omega) (by omega)
    have hdvd : (2 * bs) ∣
        (((List.range (2 * bs)).map (negRow bs sim)).flatten).length := by
      rw [hflat]
      exact dvd_mul_right _ _
    rw [reshapeRows, if_pos ⟨hpos, hdvd⟩]
    congr 1
    have hq : (((List.range (2 * bs)).map (negRow bs sim)).flatten).length
        / (2 * bs) = 2 * bs - 2 := by
      rw [hflat]
      exact Nat.mul_div_cancel_left _ (by omega)
    rw [hq]
    exact viewRows_flatten _ _ _ (by simp) hrows
  have hproclen : (if cfg.N_negative ≠ 0 then
      truncCols (takeAlong perms ((List.range (2 * bs)).map (negRow bs sim)))
        cfg.N_negative
    else (List.range (2 * bs)).map (negRow bs sim)).length = 2 * bs := by
    split
    · rw [truncCols, List.length_map, takeAlong_length]
      simp
    · simp
  have h5 : catCols ((tdiag sim bs ++ tdiagNeg sim bs).map (fun a => [a]))
      (if cfg.N_negative ≠ 0 then
        truncCols (takeAlong perms ((List.range (2 * bs)).map (negRow bs sim)))
          cfg.N_negative
      else (List.range (2 * bs)).map (negRow bs sim))
      = .ok (List.zipWith (fun p r => p ++ r)
          ((tdiag sim bs ++ tdiagNeg sim bs).map (fun a => [a]))
          (if cfg.N_negative ≠ 0 then
            truncCols (takeAlong perms ((List.range (2 * bs)).map (negRow bs sim)))
              cfg.N_negative
          else (List.range (2 * bs)).map (negRow bs sim))) := by
    rw [catCols, if_pos]
    rw [List.length_map, hdlen, hproclen]
  unfold logits
  simp only [h1, Bind.bind, Except.bind, ← hsim, h2, h3, h4, h5]

theorem dotSim_length (a b : List (List ℝ)) : (dotSim a b).length = a.length := by
  simp [dotSim]

theorem dotSim_rows (a b : List (List ℝ)) :
    ∀ r ∈ dotSim a b, r.length = b.length := by
  intro r hr
  rw [dotSim, List.mem_map] at hr
  obtain ⟨s, _, rfl⟩ := hr
  simp

/-- The summed cross-entropy against label 0 is invariant under per-row
permutations of the negative columns. -/
theorem criterion_perm :
    ∀ {N M : List (List ℝ)}, List.Forall₂ List.Perm N M → ∀ (V : List ℝ),
    criterion (List.zipWith (fun p r => p ++ r) (V.map (fun a => [a])) N)
      = criterion (List.zipWith (fun p r => p ++ r) (V.map (fun a => [a])) M) := by
  intro N M h
  induction h with
  | nil => intro V; rfl
  | @cons r r' N' M' hpr hrest ih =>
    intro V
    cases V with
    | nil => rfl
    | cons v V' =>
      simp only [List.map_cons, List.zipWith_cons_cons]
      simp only [criterion, List.map_cons, List.sum_cons]
      have htail := ih V'
      simp only [criterion] at htail
      rw [htail]
      have hsum : (r.map Real.exp).sum = (r'.map Real.exp).sum :=
        (hpr.map Real.exp).sum_eq
      simp only [rowCE, List.singleton_append, List.map_cons, List.sum_cons,
        List.getD_cons_zero, hsum]

end SimCLR_TT_Loss

theorem dropLast_drop {α : Type} (l : List α) (k : Nat) :
    l.dropLast.drop k = (l.drop k).dropLast := by
  rw [List.dropLast_eq_take, List.dropLast_eq_take, List.drop_take,
    List.length_drop]
  congr 1
  omega

theorem take_dropLast {α : Type} (l : List α) (k : Nat) (h : k + 1 ≤ l.length) :
    l.dropLast.take k = l.take k := by
  rw [List.dropLast_eq_take, List.take_take]
  congr 1
  omega

/-- Core lemma for the flatten/view off-diagonal trick: starting at row
index `i` of a matrix whose rows all have length `n`, the trick applied to
the remaining flat data produces exactly the remaining off-diagonal
entries in row-major order (minus the first `i` entries of row `i`,
already consumed by the previous chunk). -/
theorem viewRows_trick {α : Type} (n : Nat) :
    ∀ (rows : List (List α)) (i : Nat), (∀ r ∈ rows, r.length = n) →
    i + rows.length = n →
    ((viewRows (rows.length - 1) (n + 1) (rows.flatten.dropLast.drop i)).map
        (fun r => r.drop 1)).flatten = (specTail i rows).drop i := by
  intro rows
  induction rows with
  | nil => intro i _ _; simp [viewRows, specTail]
  | cons r rs ih =>
    intro i hlen hsum
    have hr : r.length = n := hlen r (by simp)
    cases rs with
    | nil =>
      have hi : i + 1 = n := by simpa using hsum
      simp only [List.length_cons, List.length_nil, Nat.add_sub_cancel,
        viewRows, List.map_nil, List.flatten_nil, specTail]
      rw [List.append_nil, List.drop_append_eq_append_drop]
      have h1 : (r.take i).length = i := by
        rw [List.length_take]; omega
      rw [h1]
      have h2 : r.drop (i + 1) = [] := by
        rw [List.drop_eq_nil_iff]; omega
      simp [h2]
    | cons r' rs' =>
      have hr' : r'.length = n := hlen r' (by simp)
      have hsum' : i + 1 + (r' :: rs').length = n := by
        simp only [List.length_cons] at hsum ⊢; omega
      have hn2 : i + 2 ≤ n := by
        simp only [List.length_cons] at hsum; omega
      -- the flat tail after row r
      set F : List α := (r' :: rs').flatten with hF
      have hFlen : n ≤ F.length := by
        rw [hF]
        simp only [List.flatten_cons, List.length_append, hr']
        omega
      have hflat : (r :: r' :: rs').flatten = r ++ F := by
        simp [hF]
      -- dropLast ∘ drop i on the full flat list
      have hsplit : (r :: r' :: rs').flatten.dropLast.drop i
          = r.drop i ++ F.dropLast := by
        rw [hflat, List.dropLast_append_of_ne_nil, List.drop_append_eq_append_drop]
        · have : i - r.length = 0 := by omega
          rw [this, List.drop_zero]
        · intro hFnil
          rw [hFnil] at hFlen
          simp at hFlen
          omega
      have hlen_dropi : (r.drop i).length = n - i := by
        rw [List.length_drop, hr]
      -- the first chunk of the view
      have hchunk : ((r :: r' :: rs').flatten.dropLast.drop i).take (n + 1)
          = r.drop i ++ r'.take (i + 1) := by
        rw [hsplit, List.take_append_eq_append_take, hlen_dropi,
          List.take_of_length_le (by rw [hlen_dropi]; omega)]
        congr 1
        have : n + 1 - (n - i) = i + 1 := by omega
        rw [this, take_dropLast _ _ (by omega)]
        rw [hF, List.flatten_cons, List.take_append_of_le_length (by omega)]
      -- the rest of the flat list fed to the recursive view
      have hrest : ((r :: r' :: rs').flatten.dropLast.drop i).drop (n + 1)
          = (r' :: rs').flatten.dropLast.drop (i + 1) := by
        rw [hsplit, List.drop_append_eq_append_drop, hlen_dropi]
        have h0 : (r.drop i).drop (n + 1) = [] := by
          rw [List.drop_eq_nil_iff, hlen_dropi]; omega
        have h1 : n + 1 - (n - i) = i + 1 := by omega
        rw [h0, h1, List.nil_append, ← hF]
      -- unfold one step of viewRows
      have hview : (r :: r' :: rs').length - 1 = (r' :: rs').length := by
        simp
      rw [hview]
      show ((viewRows ((r' :: rs').length) (n + 1) _).map _).flatten = _
      rw [show (r' :: rs').length = (r' :: rs').length - 1 + 1 by simp,
        viewRows]
      rw [List.map_cons, List.flatten_cons, hchunk, hrest]
      rw [ih (i + 1) (fun s hs => hlen s (by simp [hs])) (by simpa using hsum')]
      -- assemble
      have hdrop1 : (r.drop i ++ r'.take (i + 1)).drop 1
          = r.drop (i + 1) ++ r'.take (i + 1) := by
        rw [List.drop_append_of_le_length (by rw [hlen_dropi]; omega),
          List.drop_drop]
      rw [hdrop1]
      have htake_spec : (specTail (i + 1) (r' :: rs')).take (i + 1)
          = r'.take (i + 1) := by
        show ((r'.take (i + 1) ++ r'.drop (i + 2)) ++ specTail (i + 2) rs').take (i + 1)
          = r'.take (i + 1)
        rw [List.take_append_of_le_length, List.take_append_of_le_length,
          List.take_take, Nat.min_self]
        · rw [List.length_take]; omega
        · rw [List.length_append, List.length_take, List.length_drop]; omega
      have hrhs : (specTail i (r :: r' :: rs')).drop i
          = r.drop (i + 1) ++ specTail (i + 1) (r' :: rs') := by
        show ((r.take i ++ r.drop (i + 1)) ++ specTail (i + 1) (r' :: rs')).drop i = _
        rw [List.append_assoc, List.drop_append_eq_append_drop]
        have h2 : i - (r.take i).length = 0 := by
          rw [List.length_take]; omega
        have h3 : (r.take i).drop i = [] := by
          rw [List.drop_eq_nil_iff, List.length_take]; omega
        rw [h2, h3, List.drop_zero, List.nil_append]
      rw [hrhs, ← htake_spec, List.append_assoc, List.take_append_drop]

/-- For a square matrix, the flatten/view trick agrees with the row-major
off-diagonal list, as lists. -/
theorem off_diagonal_eq_specOffDiagonal {α : Type} (x : List (List α))
    (hrows : ∀ r ∈ x, r.length = x.length) :
    VICReg_TT_Loss.off_diagonal x = specOffDiagonal x := by
  have h := viewRows_trick x.length x 0 hrows (by omega)
  rw [List.drop_zero, List.drop_zero] at h
  exact h

theorem specTail_length {α : Type} (n : Nat) :
    ∀ (rows : List (List α)) (i : Nat), (∀ r ∈ rows, r.length = n) →
    i + rows.length = n → (specTail i rows).length = rows.length * (n - 1) := by
  intro rows
  induction rows with
  | nil => intro i _ _; simp [specTail]
  | cons r rs ih =>
    intro i hlen hsum
    have hr : r.length = n := hlen r (by simp)
    have hi : i + rs.length + 1 = n := by
      simp only [List.length_cons] at hsum; omega
    simp only [specTail, List.length_append, List.length_take, List.length_drop,
      List.length_cons]
    rw [ih (i + 1) (fun s hs => hlen s (by simp [hs])) (by omega)]
    rw [Nat.succ_mul, hr]
    omega

/-- C1: in the logits tensor formed by the SimCLR forward pass (batches of
shape (batch_size, D), batch_size ≥ 2), column 0 of every row i is the
temperature-scaled similarity between sample i of the concatenated batch
and its positive partner: row i + batch_size for i < batch_size and row
i − batch_size otherwise, i.e. the +bs and −bs diagonals of `sim`
concatenated in that order. -/
theorem C1_logits_positive_column (cfg : Config) (bs : Nat) (temp : ℝ)
    (simf : List (List ℝ) → List (List ℝ) → List (List ℝ))
    (perms : Nat → List Nat) (x x_pair : List (List ℝ)) (i : Nat)
    (hx : x.length = bs) (hxp : x_pair.length = bs)
    (hw : SimCLR_TT_Loss.width x = SimCLR_TT_Loss.width x_pair)
    (hsl : (simf (x ++ x_pair) (x ++ x_pair)).length = 2 * bs)
    (hsr : ∀ r ∈ simf (x ++ x_pair) (x ++ x_pair), r.length = 2 * bs)
    (hbs : 2 ≤ bs) (hi : i < 2 * bs) :
    ∃ L, SimCLR_TT_Loss.logits cfg bs temp simf perms x x_pair = .ok L
      ∧ (L.getD i []).getD 0 0
          = ((SimCLR_TT_Loss.scaleDiv (simf (x ++ x_pair) (x ++ x_pair))
                temp).getD i []).getD
              (if i < bs then i + bs else i - bs) 0 := by
  refine ⟨_, SimCLR_TT_Loss.logits_ok cfg bs temp simf perms x x_pair hw
    (by omega) hsl hsr hbs, ?_⟩
  set sim := SimCLR_TT_Loss.scaleDiv (simf (x ++ x_pair) (x ++ x_pair)) temp
    with hsim
  have hsl' : sim.length = 2 * bs := by
    rw [hsim, SimCLR_TT_Loss.scaleDiv_length, hsl]
  set A := SimCLR_TT_Loss.tdiag sim bs with hA
  set B := SimCLR_TT_Loss.tdiagNeg sim bs with hB
  have hAlen : A.length = bs := by
    rw [hA, SimCLR_TT_Loss.tdiag, List.length_map, List.length_range, hsl']
    omega
  have hBlen : B.length = bs := by
    rw [hB, SimCLR_TT_Loss.tdiagNeg, List.length_map, List.length_range, hsl']
    omega
  set NEGS := (if cfg.N_negative ≠ 0 then
      SimCLR_TT_Loss.truncCols (SimCLR_TT_Loss.takeAlong perms
        ((List.range (2 * bs)).map (SimCLR_TT_Loss.negRow bs sim)))
        cfg.N_negative
    else (List.range (2 * bs)).map (SimCLR_TT_Loss.negRow bs sim))
    with hNEGS
  have hNlen : NEGS.length = 2 * bs := by
    rw [hNEGS]
    split
    · rw [SimCLR_TT_Loss.truncCols, List.length_map,
        SimCLR_TT_Loss.takeAlong_length]
      simp
    · simp
  have hPlen : ((A ++ B).map (fun a => [a])).length = 2 * bs := by
    rw [List.length_map, List.length_append, hAlen, hBlen]
    omega
  have hLrow : (List.zipWith (fun p r => p ++ r)
      ((A ++ B).map (fun a => [a])) NEGS).getD i []
      = [(A ++ B).getD i 0] ++ NEGS.getD i [] := by
    have hzl : i < (List.zipWith (fun p r => p ++ r)
        ((A ++ B).map (fun a => [a])) NEGS).length := by
      rw [List.length_zipWith, hPlen, hNlen]
      omega
    rw [List.getD_eq_getElem?_getD, List.getElem?_eq_getElem hzl,
      List.getElem_zipWith]
    have h1 : i < ((A ++ B).map (fun a => [a])).length := by omega
    have h2 : i < NEGS.length := by omega
    have hABl : i < (A ++ B).length := by
      rw [List.length_append, hAlen, hBlen]
      omega
    rw [List.getElem_map]
    have hAB : (A ++ B)[i] = (A ++ B).getD i 0 := by
      rw [List.getD_eq_getElem?_getD, List.getElem?_eq_getElem hABl]
      rfl
    have hN : NEGS[i] = NEGS.getD i [] := by
      rw [List.getD_eq_getElem?_getD, List.getElem?_eq_getElem h2]
      rfl
    rw [hAB, hN]
    rfl
  rw [hLrow]
  show (A ++ B).getD i 0 = (sim.getD i []).getD (if i < bs then i + bs else i - bs) 0
  by_cases hlt : i < bs
  · rw [if_pos hlt, List.getD_eq_getElem?_getD,
      List.getElem?_append_left (by rw [hAlen]; omega), hA,
      SimCLR_TT_Loss.tdiag, List.getElem?_map,
      List.getElem?_range (by rw [hsl']; omega)]
    rfl
  · rw [if_neg hlt, List.getD_eq_getElem?_getD,
      List.getElem?_append_right (by rw [hAlen]; omega), hAlen, hB,
      SimCLR_TT_Loss.tdiagNeg, List.getElem?_map,
      List.getElem?_range (by rw [hsl']; omega)]
    have hib : i - bs + bs = i := by omega
    show (sim.getD (i - bs + bs) []).getD (i - bs) 0
      = (sim.getD i []).getD (i - bs) 0
    rw [hib]

theorem C1_logits_positive_column_witness :
    ∃ L, SimCLR_TT_Loss.logits SimCLR_TT_Loss.cfgC8 2 1 SimCLR_TT_Loss.dotSim
        (fun _ => []) SimCLR_TT_Loss.xC1 SimCLR_TT_Loss.xC1 = .ok L
      ∧ (L.getD 0 []).getD 0 0
          = ((SimCLR_TT_Loss.scaleDiv
              (SimCLR_TT_Loss.dotSim
                (SimCLR_TT_Loss.xC1 ++ SimCLR_TT_Loss.xC1)
                (SimCLR_TT_Loss.xC1 ++ SimCLR_TT_Loss.xC1)) 1).getD 0 []).getD
              (if 0 < 2 then 0 + 2 else 0 - 2) 0 :=
  C1_logits_positive_column SimCLR_TT_Loss.cfgC8 2 1 SimCLR_TT_Loss.dotSim
    (fun _ => []) SimCLR_TT_Loss.xC1 SimCLR_TT_Loss.xC1 0 rfl rfl rfl
    ((SimCLR_TT_Loss.dotSim_length _ _).trans rfl)
    (fun r hr => (SimCLR_TT_Loss.dotSim_rows _ _ r hr).trans rfl)
    (by norm_num) (by norm_num)

/-- C2: for every batch_size N ≥ 1, the mask returned by
`mask_correlated_samples N` is a (2N)×(2N) boolean matrix (by its type)
that is symmetric, is false exactly at the entries (i, i) and at
(i, (i+N) mod 2N), and is true at every other entry. -/
theorem C2_mask_invariant (bs : Nat) (hbs : 1 ≤ bs) :
    (∀ i j : Fin (2 * bs), SimCLR_TT_Loss.mask_correlated_samples bs i j
        = SimCLR_TT_Loss.mask_correlated_samples bs j i)
    ∧ (∀ i j : Fin (2 * bs),
        SimCLR_TT_Loss.mask_correlated_samples bs i j = false ↔
          ((i : Nat) = j ∨ (j : Nat) = ((i : Nat) + bs) % (2 * bs)))
    ∧ (∀ i j : Fin (2 * bs),
        SimCLR_TT_Loss.mask_correlated_samples bs i j = true ↔
          ¬((i : Nat) = j ∨ (j : Nat) = ((i : Nat) + bs) % (2 * bs))) := by
  refine ⟨fun i j => SimCLR_TT_Loss.maskFun_symm bs i j i.isLt j.isLt,
    fun i j => SimCLR_TT_Loss.maskFun_false_iff bs i j i.isLt j.isLt,
    fun i j => ?_⟩
  have h := SimCLR_TT_Loss.maskFun_false_iff bs i j i.isLt j.isLt
  rw [← h]
  show SimCLR_TT_Loss.maskFun bs i j = true
    ↔ ¬SimCLR_TT_Loss.maskFun bs i j = false
  cases SimCLR_TT_Loss.maskFun bs i j <;> simp

theorem C2_mask_invariant_witness :
    SimCLR_TT_Loss.mask_correlated_samples 2 (⟨0, by omega⟩ : Fin (2 * 2))
        (⟨2, by omega⟩ : Fin (2 * 2)) = false ↔
      (((⟨0, by omega⟩ : Fin (2 * 2)) : Nat) = ((⟨2, by omega⟩ : Fin (2 * 2)) : Nat)
        ∨ ((⟨2, by omega⟩ : Fin (2 * 2)) : Nat)
            = (((⟨0, by omega⟩ : Fin (2 * 2)) : Nat) + 2) % (2 * 2)) :=
  (C2_mask_invariant 2 (by decide)).2.1 ⟨0, by omega⟩ ⟨2, by omega⟩

/-- C4: for every n ≥ 1 and n×n matrix x, `off_diagonal x` has exactly
n²−n elements and its multiset is exactly the multiset of the off-diagonal
entries (row-major entries with row index ≠ column index). -/
theorem C4_off_diagonal {α : Type} (x : List (List α)) (n : Nat) (hn : 1 ≤ n)
    (hx : x.length = n) (hrows : ∀ r ∈ x, r.length = n) :
    (VICReg_TT_Loss.off_diagonal x).length = n * n - n ∧
    (↑(VICReg_TT_Loss.off_diagonal x) : Multiset α) = ↑(specOffDiagonal x) := by
  subst hx
  have hlist := off_diagonal_eq_specOffDiagonal x hrows
  refine ⟨?_, by rw [hlist]⟩
  rw [hlist, specOffDiagonal,
    specTail_length x.length x 0 hrows (by omega), Nat.mul_sub_one]

theorem C4_off_diagonal_witness :
    (VICReg_TT_Loss.off_diagonal [[1, 2], [3, 4]]).length = 2 * 2 - 2 ∧
    (↑(VICReg_TT_Loss.off_diagonal [[1, 2], [3, 4]]) : Multiset ℕ)
      = ↑(specOffDiagonal [[1, 2], [3, 4]]) :=
  C4_off_diagonal [[1, 2], [3, 4]] 2 (by decide) (by decide) (by decide)

namespace VICReg_TT_Loss

theorem colMean_permRows {n d : Nat} (π : Equiv.Perm (Fin n))
    (x : Fin n → Fin d → ℝ) (j : Fin d) :
    colMean (permRows π x) j = colMean x j := by
  unfold colMean permRows
  congr 1
  exact Equiv.sum_comp π (fun i => x i j)

theorem center_permRows {n d : Nat} (π : Equiv.Perm (Fin n))
    (x : Fin n → Fin d → ℝ) :
    center (permRows π x) = permRows π (center x) := by
  funext i j
  simp only [center, permRows, colMean_permRows]

theorem covMat_permRows (cfg : Config) {n d : Nat} (π : Equiv.Perm (Fin n))
    (xc : Fin n → Fin d → ℝ) :
    covMat cfg (permRows π xc) = covMat cfg xc := by
  funext j k
  unfold covMat permRows
  congr 1
  exact Equiv.sum_comp π (fun i => xc i j * xc i k)

/-- Summing `f` over `specTail i L` equals the sum over all entries minus
the sum over the diagonal entries read from column `i`. -/
theorem specTail_map_sum (f : ℝ → ℝ) (n : Nat) :
    ∀ (L : List (List ℝ)) (i : Nat), (∀ r ∈ L, r.length = n) →
    i + L.length = n →
    ((specTail i L).map f).sum
      = ((L.map (fun r => ((r.map f).sum))).sum) - ((diagFrom i L).map f).sum := by
  intro L
  induction L with
  | nil => intro i _ _; simp [specTail, diagFrom]
  | cons r rs ih =>
    intro i hlen hsum
    have hr : r.length = n := hlen r (by simp)
    have hi : i < n := by simp only [List.length_cons] at hsum; omega
    simp only [specTail, diagFrom, List.map_cons, List.map_append,
      List.sum_cons, List.sum_append]
    rw [ih (i + 1) (fun s hs => hlen s (by simp [hs]))
      (by simp only [List.length_cons] at hsum; omega)]
    have hid : i < r.length := by omega
    have hdrop : r.drop i = r[i] :: r.drop (i + 1) :=
      List.drop_eq_getElem_cons hid
    have hget : r.getD i 0 = r[i] := by
      rw [List.getD_eq_getElem?_getD, List.getElem?_eq_getElem hid]
      rfl
    have hdecomp : ((r.map f).sum)
        = ((r.take i).map f).sum + f r[i] + ((r.drop (i + 1)).map f).sum := by
      conv_lhs => rw [← List.take_append_drop i r, hdrop]
      rw [List.map_append, List.sum_append, List.map_cons, List.sum_cons]
      ring
    rw [hdecomp, hget]
    ring

theorem diagFrom_ofFn :
    ∀ (d : Nat) (g : Fin d → List ℝ) (i : Nat),
    diagFrom i (List.ofFn g) = List.ofFn (fun k : Fin d => (g k).getD (i + k) 0) := by
  intro d
  induction d with
  | zero => intro g i; simp [diagFrom]
  | succ d ih =>
    intro g i
    rw [List.ofFn_succ, diagFrom, ih, List.ofFn_succ]
    congr 1
    refine congrArg List.ofFn (funext fun k => ?_)
    have h : i + 1 + (k : Nat) = i + ((k : Nat) + 1) := by omega
    simp only [Fin.val_succ, h]

/-- The sum of `f` over the off-diagonal trick applied to a materialized
square matrix is the double sum of `f` over the entries off the diagonal. -/
theorem sum_map_off_diagonal_mat {d : Nat} (M : Fin d → Fin d → ℝ)
    (f : ℝ → ℝ) :
    ((off_diagonal (matToLists M)).map f).sum
      = ∑ j, ∑ k, if j = k then 0 else f (M j k) := by
  have hlen : (matToLists M).length = d := by
    simp [matToLists]
  have hrows : ∀ r ∈ matToLists M, r.length = (matToLists M).length := by
    intro r hr
    rw [hlen]
    rw [matToLists, List.mem_ofFn] at hr
    obtain ⟨k, rfl⟩ := hr
    simp
  rw [off_diagonal_eq_specOffDiagonal _ hrows, specOffDiagonal,
    specTail_map_sum f d _ 0 (by rw [hlen] at hrows; exact hrows) (by simp [hlen])]
  rw [matToLists, diagFrom_ofFn, List.map_ofFn, List.map_ofFn, List.sum_ofFn,
    List.sum_ofFn]
  have hterm : ∀ j : Fin d,
      ((fun r => ((r.map f).sum)) ∘ fun i => List.ofFn (fun k => M i k)) j
        = ∑ k, f (M j k) := by
    intro j
    simp only [Function.comp_apply, List.map_ofFn, List.sum_ofFn,
      Function.comp_apply]
  have hdiag : ∀ k : Fin d,
      (f ∘ fun k : Fin d => (List.ofFn (fun j => M k j)).getD (0 + (k : Nat)) 0) k
        = f (M k k) := by
    intro k
    have hk : (0 + (k : Nat)) < (List.ofFn (fun j => M k j)).length := by
      simp [k.isLt]
    simp only [Function.comp_apply, List.getD_eq_getElem?_getD,
      List.getElem?_eq_getElem hk]
    simp [List.getElem_ofFn]
  rw [Finset.sum_congr rfl (fun j _ => hterm j),
    Finset.sum_congr rfl (fun k _ => hdiag k)]
  rw [← Finset.sum_sub_distrib]
  refine Finset.sum_congr rfl (fun j _ => ?_)
  have hsplit : ∀ k : Fin d, (if j = k then 0 else f (M j k))
      = f (M j k) - (if j = k then f (M j k) else 0) := by
    intro k
    by_cases h : j = k <;> simp [h]
  rw [Finset.sum_congr rfl (fun k _ => hsplit k), Finset.sum_sub_distrib,
    Finset.sum_ite_eq]
  simp

/-- On an all-zero batch of shape (n, d) with d ≥ 1, the three terms of
the VICReg forward pass evaluate to: invariance 0, covariance 0, variance
term 99/100 (std is √ε = 1/100 under the ε = 1e-4 floor), so the loss is
VICREG_STD_COEFF · (99/100). -/
theorem forward_zeros (cfg : Config) (n d : Nat) (hd : 1 ≤ d) :
    mse_loss (fun _ _ => (0 : ℝ) : Fin n → Fin d → ℝ) (fun _ _ => 0) = 0
    ∧ cov_loss_of cfg (center (fun _ _ => (0 : ℝ) : Fin n → Fin d → ℝ))
        (center (fun _ _ => 0)) = 0
    ∧ std_loss_of (center (fun _ _ => (0 : ℝ) : Fin n → Fin d → ℝ))
        (center (fun _ _ => 0)) = 99 / 100
    ∧ forward cfg (fun _ _ => (0 : ℝ) : Fin n → Fin d → ℝ) (fun _ _ => 0)
        = cfg.VICREG_STD_COEFF * (99 / 100) := by
  have hc : center (fun _ _ => (0 : ℝ) : Fin n → Fin d → ℝ) = fun _ _ => 0 := by
    funext i j
    simp [center, colMean]
  have hmse : mse_loss (fun _ _ => (0 : ℝ) : Fin n → Fin d → ℝ)
      (fun _ _ => 0) = 0 := by
    simp [mse_loss]
  have hcov : cov_loss_of cfg (center (fun _ _ => (0 : ℝ) : Fin n → Fin d → ℝ))
      (center (fun _ _ => 0)) = 0 := by
    rw [hc]
    unfold cov_loss_of
    rw [sum_map_off_diagonal_mat _ (fun v => v ^ 2)]
    simp [covMat]
  have hstd1 : ∀ j : Fin d,
      stdCol (fun _ _ => (0 : ℝ) : Fin n → Fin d → ℝ) j = 1 / 100 := by
    intro j
    unfold stdCol varCol colMean
    rw [show (∑ i : Fin n, ((0 : ℝ) - (∑ i : Fin n, (0 : ℝ)) / (n : ℝ)) ^ 2)
        = 0 by simp]
    rw [show (0 : ℝ) / ((n : ℝ) - 1) + 0.0001 = (1 / 100) ^ 2 by norm_num]
    exact Real.sqrt_sq (by norm_num)
  have hstd : std_loss_of (center (fun _ _ => (0 : ℝ) : Fin n → Fin d → ℝ))
      (center (fun _ _ => 0)) = 99 / 100 := by
    rw [hc]
    unfold std_loss_of
    rw [Finset.sum_congr rfl (fun j _ => by rw [hstd1 j])]
    rw [Finset.sum_const, Finset.card_univ, Fintype.card_fin]
    have hmax : max (1 - 1 / 100 : ℝ) 0 = 99 / 100 := by norm_num
    rw [hmax]
    have hd0 : (d : ℝ) ≠ 0 := by
      simp only [ne_eq, Nat.cast_eq_zero]
      omega
    rw [nsmul_eq_mul, mul_comm, mul_div_assoc, div_self hd0]
    ring
  refine ⟨hmse, hcov, hstd, ?_⟩
  unfold forward
  rw [hmse, hcov, hstd]
  ring

end VICReg_TT_Loss

/-- C3 (amended): for the VICReg loss called with x and y both all-zero
batches of shape (BATCH_SIZE, HIDDEN_DIM) (BATCH_SIZE ≥ 2, HIDDEN_DIM ≥ 1):
the invariance term is 0 and the covariance term is 0 as claimed, but the
ε = 1e-4 floor inside the square root makes the per-dimension std
√ε = 1/100, so the variance term equals 99/100 — not 1 — and the returned
loss equals VICREG_STD_COEFF · (99/100). -/
theorem C3_vicreg_zeros (cfg : Config) (hn : 2 ≤ cfg.BATCH_SIZE)
    (hd : 1 ≤ cfg.HIDDEN_DIM) :
    VICReg_TT_Loss.mse_loss
        (fun _ _ => (0 : ℝ) : Fin cfg.BATCH_SIZE → Fin cfg.HIDDEN_DIM → ℝ)
        (fun _ _ => 0) = 0
    ∧ VICReg_TT_Loss.cov_loss_of cfg
        (VICReg_TT_Loss.center
          (fun _ _ => (0 : ℝ) : Fin cfg.BATCH_SIZE → Fin cfg.HIDDEN_DIM → ℝ))
        (VICReg_TT_Loss.center (fun _ _ => 0)) = 0
    ∧ VICReg_TT_Loss.std_loss_of
        (VICReg_TT_Loss.center
          (fun _ _ => (0 : ℝ) : Fin cfg.BATCH_SIZE → Fin cfg.HIDDEN_DIM → ℝ))
        (VICReg_TT_Loss.center (fun _ _ => 0)) = 99 / 100
    ∧ VICReg_TT_Loss.forward cfg
        (fun _ _ => (0 : ℝ) : Fin cfg.BATCH_SIZE → Fin cfg.HIDDEN_DIM → ℝ)
        (fun _ _ => 0) = cfg.VICREG_STD_COEFF * (99 / 100) :=
  VICReg_TT_Loss.forward_zeros cfg cfg.BATCH_SIZE cfg.HIDDEN_DIM hd

theorem C3_vicreg_zeros_witness :
    VICReg_TT_Loss.mse_loss
        (fun _ _ => (0 : ℝ) : Fin cfgC3.BATCH_SIZE → Fin cfgC3.HIDDEN_DIM → ℝ)
        (fun _ _ => 0) = 0
    ∧ VICReg_TT_Loss.cov_loss_of cfgC3
        (VICReg_TT_Loss.center
          (fun _ _ => (0 : ℝ) : Fin cfgC3.BATCH_SIZE → Fin cfgC3.HIDDEN_DIM → ℝ))
        (VICReg_TT_Loss.center (fun _ _ => 0)) = 0
    ∧ VICReg_TT_Loss.std_loss_of
        (VICReg_TT_Loss.center
          (fun _ _ => (0 : ℝ) : Fin cfgC3.BATCH_SIZE → Fin cfgC3.HIDDEN_DIM → ℝ))
        (VICReg_TT_Loss.center (fun _ _ => 0)) = 99 / 100
    ∧ VICReg_TT_Loss.forward cfgC3
        (fun _ _ => (0 : ℝ) : Fin cfgC3.BATCH_SIZE → Fin cfgC3.HIDDEN_DIM → ℝ)
        (fun _ _ => 0) = cfgC3.VICREG_STD_COEFF * (99 / 100) :=
  C3_vicreg_zeros cfgC3 (by decide) (by decide)

/-- C3 counterexample: with BATCH_SIZE = 2, HIDDEN_DIM = 1 and
VICREG_STD_COEFF = 25, the all-zero scenario yields a variance term of
99/100 ≠ 1 and a loss of 25 · (99/100) = 24.75 ≠ VICREG_STD_COEFF · 1. -/
theorem C3_vicreg_zeros_counterexample :
    VICReg_TT_Loss.std_loss_of
        (VICReg_TT_Loss.center (fun _ _ => (0 : ℝ) : Fin 2 → Fin 1 → ℝ))
        (VICReg_TT_Loss.center (fun _ _ => 0)) ≠ 1
    ∧ VICReg_TT_Loss.forward cfgC3
        (fun _ _ => (0 : ℝ) : Fin 2 → Fin 1 → ℝ) (fun _ _ => 0)
      ≠ cfgC3.VICREG_STD_COEFF * 1 := by
  obtain ⟨-, -, hstd, hfwd⟩ :=
    VICReg_TT_Loss.forward_zeros cfgC3 2 1 (by norm_num)
  refine ⟨?_, ?_⟩
  · rw [hstd]; norm_num
  · have hcoeff : cfgC3.VICREG_STD_COEFF = 25 := rfl
    rw [show VICReg_TT_Loss.forward cfgC3
        (fun _ _ => (0 : ℝ) : Fin 2 → Fin 1 → ℝ) (fun _ _ => 0)
      = cfgC3.VICREG_STD_COEFF * (99 / 100) from hfwd, hcoeff]
    norm_num

theorem rowNorm_nonneg {d : Nat} (v : Fin d → ℝ) : 0 ≤ rowNorm v :=
  Real.sqrt_nonneg _

theorem sum_sq_normalize_le_one {n d : Nat} (x : Fin n → Fin d → ℝ)
    (i : Fin n) : ∑ j, normalizeRows x i j ^ 2 ≤ 1 := by
  have hM : (0 : ℝ) < max (rowNorm (x i)) 1e-12 :=
    lt_max_of_lt_right (by norm_num)
  have hsum : ∑ j, normalizeRows x i j ^ 2
      = (∑ j, x i j ^ 2) / (max (rowNorm (x i)) 1e-12) ^ 2 := by
    rw [Finset.sum_div]
    refine Finset.sum_congr rfl (fun j _ => ?_)
    rw [normalizeRows, div_pow]
  rw [hsum, div_le_one (by positivity)]
  have h1 : ∑ j, x i j ^ 2 = rowNorm (x i) ^ 2 :=
    (Real.sq_sqrt (by positivity)).symm
  rw [h1]
  exact pow_le_pow_left₀ (rowNorm_nonneg _) (le_max_left _ _) 2

theorem dot_normalize_bound {n d : Nat} (x y : Fin n → Fin d → ℝ)
    (i : Fin n) :
    |∑ j, normalizeRows x i j * normalizeRows y i j| ≤ 1 := by
  rw [← sq_le_one_iff_abs_le_one]
  calc (∑ j, normalizeRows x i j * normalizeRows y i j) ^ 2
      ≤ (∑ j, normalizeRows x i j ^ 2) * ∑ j, normalizeRows y i j ^ 2 :=
        Finset.sum_mul_sq_le_sq_mul_sq Finset.univ _ _
    _ ≤ 1 * 1 :=
        mul_le_mul (sum_sq_normalize_le_one x i)
          (sum_sq_normalize_le_one y i) (by positivity) (by norm_num)
    _ = 1 := mul_one 1

/-- C5 (amended): the BYOL forward output is the per-sample vector whose
entry i is 2 − 2·(dot of the eps-normalized rows), where F.normalize
divides by max(‖row‖₂, 1e-12); every entry lies in [0, 4]; rows with
norm ≥ 1e-12 are exactly L2-normalized; and when x == x_pair with all row
norms ≥ 1e-12 (rather than merely non-zero) every entry is 0. -/
theorem C5_byol_forward {S : Type} (inst : BYOL_TT_Loss S) {n d : Nat}
    (x x_pair : Fin n → Fin d → ℝ) :
    (∀ i, inst.forward x x_pair i
        = 2 - 2 * ∑ j, normalizeRows x i j * normalizeRows x_pair i j)
    ∧ (∀ i, 0 ≤ inst.forward x x_pair i ∧ inst.forward x x_pair i ≤ 4)
    ∧ (∀ i, 1e-12 ≤ rowNorm (x i) → 1e-12 ≤ rowNorm (x_pair i) →
        inst.forward x x_pair i
          = 2 - 2 * ∑ j, x i j / rowNorm (x i)
              * (x_pair i j / rowNorm (x_pair i)))
    ∧ (x = x_pair → (∀ i, 1e-12 ≤ rowNorm (x i)) →
        ∀ i, inst.forward x x_pair i = 0) := by
  refine ⟨fun i => rfl, fun i => ?_, fun i hx hy => ?_, fun hxy hnorm i => ?_⟩
  · have h := dot_normalize_bound x x_pair i
    rw [abs_le] at h
    simp only [BYOL_TT_Loss.forward]
    constructor
    · linarith [h.2]
    · linarith [h.1]
  · have hxm : max (rowNorm (x i)) 1e-12 = rowNorm (x i) := max_eq_left hx
    have hym : max (rowNorm (x_pair i)) 1e-12 = rowNorm (x_pair i) :=
      max_eq_left hy
    simp only [BYOL_TT_Loss.forward, normalizeRows, hxm, hym]
  · subst hxy
    have hM : max (rowNorm (x i)) 1e-12 = rowNorm (x i) :=
      max_eq_left (hnorm i)
    have hne : rowNorm (x i) ≠ 0 := by
      have h := hnorm i
      intro h0
      rw [h0] at h
      norm_num at h
    simp only [BYOL_TT_Loss.forward, normalizeRows, hM]
    have hdot : ∑ j, x i j / rowNorm (x i) * (x i j / rowNorm (x i))
        = (∑ j, x i j ^ 2) / rowNorm (x i) ^ 2 := by
      rw [Finset.sum_div]
      exact Finset.sum_congr rfl (fun j _ => by ring)
    have hsq : (∑ j, x i j ^ 2) = rowNorm (x i) ^ 2 :=
      (Real.sq_sqrt (by positivity)).symm
    rw [hdot, hsq, div_self (pow_ne_zero 2 hne)]
    ring

theorem C5_byol_forward_witness :
    (BYOL_TT_Loss.mk ()).forward
      (fun _ _ => (1 : ℝ) : Fin 1 → Fin 1 → ℝ) (fun _ _ => 1) 0 = 0 :=
  (C5_byol_forward (BYOL_TT_Loss.mk ())
      (fun _ _ => (1 : ℝ) : Fin 1 → Fin 1 → ℝ) (fun _ _ => 1)).2.2.2 rfl
    (fun _ => by
      rw [rowNorm, show (∑ j : Fin 1, ((1 : ℝ)) ^ 2) = 1 by simp,
        Real.sqrt_one]
      norm_num) 0

/-- C5 counterexample: a batch whose single row is the non-zero vector
(1e-13) paired with itself gives loss entry 99/50 ≠ 0, because F.normalize
divides by the eps 1e-12 rather than the row norm. -/
theorem C5_byol_counterexample :
    (∀ i j, xC5 i j ≠ 0)
    ∧ (BYOL_TT_Loss.mk ()).forward xC5 xC5 0 = 99 / 50
    ∧ (BYOL_TT_Loss.mk ()).forward xC5 xC5 0 ≠ 0 := by
  have hnorm : rowNorm (xC5 0) = 1e-13 := by
    rw [rowNorm, show (∑ j : Fin 1, xC5 0 j ^ 2) = (1e-13 : ℝ) ^ 2 by
      simp [xC5]]
    exact Real.sqrt_sq (by norm_num)
  have hmax : max (rowNorm (xC5 0)) 1e-12 = 1e-12 := by
    rw [hnorm]
    exact max_eq_right (by norm_num)
  have hfwd : (BYOL_TT_Loss.mk ()).forward xC5 xC5 0 = 99 / 50 := by
    simp only [BYOL_TT_Loss.forward, normalizeRows, hmax, xC5,
      Fin.sum_univ_one]
    norm_num
  refine ⟨fun i j => by simp only [xC5]; norm_num, hfwd, by rw [hfwd]; norm_num⟩

/-- C6: applying any permutation of the batch (sample) axis to the rows of
both inputs leaves the covariance term of the VICReg forward pass
unchanged. -/
theorem C6_cov_perm_invariant (cfg : Config) {n d : Nat}
    (π : Equiv.Perm (Fin n)) (x y : Fin n → Fin d → ℝ) :
    VICReg_TT_Loss.cov_loss_of cfg
        (VICReg_TT_Loss.center (permRows π x))
        (VICReg_TT_Loss.center (permRows π y))
      = VICReg_TT_Loss.cov_loss_of cfg
        (VICReg_TT_Loss.center x) (VICReg_TT_Loss.center y) := by
  rw [VICReg_TT_Loss.center_permRows, VICReg_TT_Loss.center_permRows]
  unfold VICReg_TT_Loss.cov_loss_of
  rw [VICReg_TT_Loss.covMat_permRows, VICReg_TT_Loss.covMat_permRows]

/-- C10: the forward covariance term divides the covariance matrices by
(BATCH_SIZE − 1) and the off-diagonal sums of squares by HIDDEN_DIM, both
configured constants, for every input shape (n, d); it agrees with the
spec formula (divisors n − 1 and d) exactly under the precondition
n = BATCH_SIZE and d = HIDDEN_DIM, and differs from it on a concrete
input with n ≠ BATCH_SIZE. -/
theorem C10_cov_config_normalization :
    (∀ (cfg : Config) (n d : Nat) (x y : Fin n → Fin d → ℝ),
      VICReg_TT_Loss.cov_loss_of cfg
          (VICReg_TT_Loss.center x) (VICReg_TT_Loss.center y)
        = (∑ j, ∑ k, if j = k then 0 else
            ((∑ i, VICReg_TT_Loss.center x i j * VICReg_TT_Loss.center x i k)
              / ((cfg.BATCH_SIZE : ℝ) - 1)) ^ 2) / (cfg.HIDDEN_DIM : ℝ)
          + (∑ j, ∑ k, if j = k then 0 else
            ((∑ i, VICReg_TT_Loss.center y i j * VICReg_TT_Loss.center y i k)
              / ((cfg.BATCH_SIZE : ℝ) - 1)) ^ 2) / (cfg.HIDDEN_DIM : ℝ))
    ∧ (∀ (cfg : Config) (n d : Nat) (x y : Fin n → Fin d → ℝ),
        n = cfg.BATCH_SIZE → d = cfg.HIDDEN_DIM →
        VICReg_TT_Loss.cov_loss_of cfg
            (VICReg_TT_Loss.center x) (VICReg_TT_Loss.center y)
          = specCovTerm (VICReg_TT_Loss.center x) (VICReg_TT_Loss.center y))
    ∧ VICReg_TT_Loss.cov_loss_of cfgC10
          (VICReg_TT_Loss.center xC10) (VICReg_TT_Loss.center yC10)
        ≠ specCovTerm (VICReg_TT_Loss.center xC10) (VICReg_TT_Loss.center yC10)
    := by
  have hkey : ∀ (cfg : Config) (n d : Nat) (x y : Fin n → Fin d → ℝ),
      VICReg_TT_Loss.cov_loss_of cfg
          (VICReg_TT_Loss.center x) (VICReg_TT_Loss.center y)
        = (∑ j, ∑ k, if j = k then 0 else
            ((∑ i, VICReg_TT_Loss.center x i j * VICReg_TT_Loss.center x i k)
              / ((cfg.BATCH_SIZE : ℝ) - 1)) ^ 2) / (cfg.HIDDEN_DIM : ℝ)
          + (∑ j, ∑ k, if j = k then 0 else
            ((∑ i, VICReg_TT_Loss.center y i j * VICReg_TT_Loss.center y i k)
              / ((cfg.BATCH_SIZE : ℝ) - 1)) ^ 2) / (cfg.HIDDEN_DIM : ℝ) := by
    intro cfg n d x y
    unfold VICReg_TT_Loss.cov_loss_of
    rw [VICReg_TT_Loss.sum_map_off_diagonal_mat _ (fun v => v ^ 2),
      VICReg_TT_Loss.sum_map_off_diagonal_mat _ (fun v => v ^ 2)]
    simp only [VICReg_TT_Loss.covMat]
  refine ⟨hkey, fun cfg n d x y h1 h2 => ?_, ?_⟩
  · subst h1; subst h2
    rw [hkey]
    simp only [specCovTerm, specCovHalf]
  · rw [hkey]
    have hcx : VICReg_TT_Loss.center xC10 = xC10 := by
      funext i j
      simp only [VICReg_TT_Loss.center, VICReg_TT_Loss.colMean, xC10,
        Fin.sum_univ_two]
      norm_num
    have hcy : VICReg_TT_Loss.center yC10 = yC10 := by
      funext i j
      simp only [VICReg_TT_Loss.center, VICReg_TT_Loss.colMean, yC10,
        Fin.sum_univ_two]
      norm_num
    rw [hcx, hcy]
    simp only [specCovTerm, specCovHalf, cfgC10, xC10, yC10,
      Fin.sum_univ_two]
    norm_num

theorem C10_cov_config_normalization_witness :
    VICReg_TT_Loss.cov_loss_of (⟨0, 1, 1, 0, 0, 0⟩ : Config)
        (VICReg_TT_Loss.center (fun _ _ => 0 : Fin 1 → Fin 1 → ℝ))
        (VICReg_TT_Loss.center (fun _ _ => 0 : Fin 1 → Fin 1 → ℝ))
      = specCovTerm
        (VICReg_TT_Loss.center (fun _ _ => 0 : Fin 1 → Fin 1 → ℝ))
        (VICReg_TT_Loss.center (fun _ _ => 0 : Fin 1 → Fin 1 → ℝ)) :=
  C10_cov_config_normalization.2.1 ⟨0, 1, 1, 0, 0, 0⟩ 1 1
    (fun _ _ => 0) (fun _ _ => 0) rfl rfl

/-- C8 (amended): the forward pass raises a shape error when the feature
widths of x and x_pair differ, and when x and x_pair have the same row
count n but n differs from the configured batch_size; however the check is
not total: inputs of different row counts summing to 2 · batch_size (see
the counterexample) are accepted. -/
theorem C8_shape_error (cfg : Config) (bs : Nat) (temp : ℝ)
    (simf : List (List ℝ) → List (List ℝ) → List (List ℝ))
    (perms : Nat → List Nat) :
    (∀ x x_pair : List (List ℝ),
      SimCLR_TT_Loss.width x ≠ SimCLR_TT_Loss.width x_pair →
      SimCLR_TT_Loss.forward cfg bs temp simf perms x x_pair
        = .error .shapeMismatch)
    ∧ (∀ (x x_pair : List (List ℝ)) (n : Nat),
        x.length = n → x_pair.length = n → n ≠ bs → 1 ≤ bs →
        SimCLR_TT_Loss.width x = SimCLR_TT_Loss.width x_pair →
        (simf (x ++ x_pair) (x ++ x_pair)).length = (x ++ x_pair).length →
        SimCLR_TT_Loss.forward cfg bs temp simf perms x x_pair
          = .error .shapeMismatch) := by
  constructor
  · intro x x_pair hne
    have h1 : SimCLR_TT_Loss.tcat x x_pair = .error .shapeMismatch := by
      rw [SimCLR_TT_Loss.tcat, if_neg hne]
    unfold SimCLR_TT_Loss.forward SimCLR_TT_Loss.logits
    simp only [h1, Bind.bind, Except.bind]
  · intro x x_pair n hx hxp hnb hbs hw hsl
    have h1 : SimCLR_TT_Loss.tcat x x_pair = .ok (x ++ x_pair) := by
      rw [SimCLR_TT_Loss.tcat, if_pos hw]
    set sim := SimCLR_TT_Loss.scaleDiv (simf (x ++ x_pair) (x ++ x_pair)) temp
      with hsim
    have hsl' : sim.length = 2 * n := by
      rw [hsim, SimCLR_TT_Loss.scaleDiv_length, hsl, List.length_append]
      omega
    have hdlen : (SimCLR_TT_Loss.tdiag sim bs
        ++ SimCLR_TT_Loss.tdiagNeg sim bs).length ≠ 2 * bs := by
      simp only [SimCLR_TT_Loss.tdiag, SimCLR_TT_Loss.tdiagNeg,
        List.length_append, List.length_map, List.length_range, hsl']
      omega
    have h2 : SimCLR_TT_Loss.reshapeCol
        (SimCLR_TT_Loss.tdiag sim bs ++ SimCLR_TT_Loss.tdiagNeg sim bs)
        (2 * bs) = .error .shapeMismatch := by
      rw [SimCLR_TT_Loss.reshapeCol, if_neg hdlen]
    unfold SimCLR_TT_Loss.forward SimCLR_TT_Loss.logits
    simp only [h1, Bind.bind, Except.bind, ← hsim, h2]

theorem C8_shape_error_witness :
    SimCLR_TT_Loss.forward SimCLR_TT_Loss.cfgC8 2 1 SimCLR_TT_Loss.dotSim
      (fun _ => []) [[1]] [[1]] = .error .shapeMismatch :=
  (C8_shape_error SimCLR_TT_Loss.cfgC8 2 1 SimCLR_TT_Loss.dotSim
      (fun _ => [])).2 [[1]] [[1]] 1 rfl rfl (by decide) (by decide) rfl
    ((SimCLR_TT_Loss.dotSim_length _ _).trans rfl)

/-- C8 counterexample: x with 3 rows and x_pair with 1 row (batch_size 2,
so both the x/x_pair shapes and x's batch dimension disagree with the
configuration) nevertheless raises no error: the forward pass returns a loss
value, because 3 + 1 rows equal 2 · batch_size and every downstream shape
check then passes. -/
theorem C8_shape_counterexample :
    (SimCLR_TT_Loss.xC8.length ≠ SimCLR_TT_Loss.xpC8.length
      ∧ SimCLR_TT_Loss.xC8.length ≠ 2)
    ∧ ∃ v, SimCLR_TT_Loss.forward SimCLR_TT_Loss.cfgC8 2 1
        SimCLR_TT_Loss.dotSim (fun _ => []) SimCLR_TT_Loss.xC8
        SimCLR_TT_Loss.xpC8 = .ok v := by
  refine ⟨⟨by decide, by decide⟩, ?_⟩
  have hL := SimCLR_TT_Loss.logits_ok SimCLR_TT_Loss.cfgC8 2 1
    SimCLR_TT_Loss.dotSim (fun _ => []) SimCLR_TT_Loss.xC8
    SimCLR_TT_Loss.xpC8 rfl rfl
    ((SimCLR_TT_Loss.dotSim_length _ _).trans rfl)
    (fun r hr => (SimCLR_TT_Loss.dotSim_rows _ _ r hr).trans rfl)
    (by norm_num)
  unfold SimCLR_TT_Loss.forward
  rw [hL]
  exact ⟨_, rfl⟩

/-- C9: when the configured negative-sample cap exceeds the number 2N − 2
of available negatives, the truncation step is a no-op: no error is
raised, a loss is returned, and it equals the uncapped loss (the per-row
random permutation of the negatives does not change the cross-entropy). -/
theorem C9_cap_noop (cfg : Config) (bs : Nat) (temp : ℝ)
    (simf : List (List ℝ) → List (List ℝ) → List (List ℝ))
    (perms : Nat → List Nat) (x x_pair : List (List ℝ))
    (hx : x.length = bs) (hxp : x_pair.length = bs)
    (hw : SimCLR_TT_Loss.width x = SimCLR_TT_Loss.width x_pair)
    (hsl : (simf (x ++ x_pair) (x ++ x_pair)).length = 2 * bs)
    (hsr : ∀ r ∈ simf (x ++ x_pair) (x ++ x_pair), r.length = 2 * bs)
    (hbs : 2 ≤ bs)
    (hcap : 2 * bs - 2 < cfg.N_negative)
    (hperm : ∀ i, i < 2 * bs → (perms i).Perm (List.range (2 * bs - 2))) :
    (∃ v, SimCLR_TT_Loss.forward cfg bs temp simf perms x x_pair = .ok v)
    ∧ SimCLR_TT_Loss.forward cfg bs temp simf perms x x_pair
        = SimCLR_TT_Loss.forward {cfg with N_negative := 0} bs temp simf
            perms x x_pair := by
  have hz : x.length + x_pair.length = 2 * bs := by omega
  have hne : cfg.N_negative ≠ 0 := by omega
  have L1 := SimCLR_TT_Loss.logits_ok cfg bs temp simf perms x x_pair
    hw hz hsl hsr hbs
  have L2 := SimCLR_TT_Loss.logits_ok {cfg with N_negative := 0} bs temp simf
    perms x x_pair hw hz hsl hsr hbs
  rw [if_pos hne] at L1
  rw [if_neg (by simp)] at L2
  set sim := SimCLR_TT_Loss.scaleDiv (simf (x ++ x_pair) (x ++ x_pair)) temp
    with hsim
  set NR := (List.range (2 * bs)).map (SimCLR_TT_Loss.negRow bs sim) with hNR
  have hNRlen : NR.length = 2 * bs := by rw [hNR]; simp
  have hrowlen : ∀ i, i < 2 * bs →
      (SimCLR_TT_Loss.negRow bs sim i).length = 2 * bs - 2 := by
    intro i hi
    rw [SimCLR_TT_Loss.negRow, List.length_map,
      SimCLR_TT_Loss.filter_mask_length bs i hi]
  have hfa : List.Forall₂ List.Perm
      (SimCLR_TT_Loss.truncCols (SimCLR_TT_Loss.takeAlong perms NR)
        cfg.N_negative) NR := by
    rw [List.forall₂_iff_get]
    have hlen1 : (SimCLR_TT_Loss.truncCols (SimCLR_TT_Loss.takeAlong perms NR)
        cfg.N_negative).length = 2 * bs := by
      rw [SimCLR_TT_Loss.truncCols, List.length_map,
        SimCLR_TT_Loss.takeAlong_length, hNRlen]
    refine ⟨by rw [hlen1, hNRlen], ?_⟩
    intro i h1 h2
    rw [List.get_eq_getElem, List.get_eq_getElem]
    have hi : i < 2 * bs := by rw [hlen1] at h1; exact h1
    have hTA : i < (SimCLR_TT_Loss.takeAlong perms NR).length := by
      rw [SimCLR_TT_Loss.takeAlong_length, hNRlen]
      exact hi
    have hTAgd : (SimCLR_TT_Loss.takeAlong perms NR).getD i []
        = (SimCLR_TT_Loss.takeAlong perms NR)[i] := by
      rw [List.getD_eq_getElem?_getD, List.getElem?_eq_getElem hTA]
      rfl
    have e1 : (SimCLR_TT_Loss.truncCols (SimCLR_TT_Loss.takeAlong perms NR)
        cfg.N_negative)[i]
        = List.take cfg.N_negative
            ((SimCLR_TT_Loss.takeAlong perms NR).getD i []) := by
      simp only [SimCLR_TT_Loss.truncCols]
      rw [List.getElem_map, hTAgd]
    have hNRi : NR.getD i [] = SimCLR_TT_Loss.negRow bs sim i := by
      rw [hNR]
      exact getD_map_range _ _ _ hi _
    have hNRe : NR[i] = SimCLR_TT_Loss.negRow bs sim i := by
      rw [← hNRi, List.getD_eq_getElem?_getD, List.getElem?_eq_getElem h2]
      rfl
    rw [e1, SimCLR_TT_Loss.takeAlong_getD perms NR i (by rw [hNRlen]; exact hi),
      hNRi, hNRe]
    have hplen : ((perms i).map
        (fun k => (SimCLR_TT_Loss.negRow bs sim i).getD k 0)).length
        = 2 * bs - 2 := by
      rw [List.length_map, (hperm i hi).length_eq, List.length_range]
    rw [List.take_of_length_le (by rw [hplen]; omega)]
    have hmap := (hperm i hi).map
      (fun k => (SimCLR_TT_Loss.negRow bs sim i).getD k 0)
    have hrange : (List.range (2 * bs - 2)).map
        (fun k => (SimCLR_TT_Loss.negRow bs sim i).getD k 0)
        = SimCLR_TT_Loss.negRow bs sim i := by
      have hl := hrowlen i hi
      rw [← hl]
      exact map_getD_range _ _
    rw [hrange] at hmap
    exact hmap
  have hcrit := SimCLR_TT_Loss.criterion_perm hfa
    (SimCLR_TT_Loss.tdiag sim bs ++ SimCLR_TT_Loss.tdiagNeg sim bs)
  constructor
  · unfold SimCLR_TT_Loss.forward
    rw [L1]
    exact ⟨_, rfl⟩
  · unfold SimCLR_TT_Loss.forward
    rw [L1, L2]
    simp only [Bind.bind, Except.bind, pure, Except.pure]
    rw [hcrit]

theorem C9_cap_noop_witness :
    (∃ v, SimCLR_TT_Loss.forward SimCLR_TT_Loss.cfgC9 2 1
        SimCLR_TT_Loss.dotSim (fun _ => [1, 0]) SimCLR_TT_Loss.xC1
        SimCLR_TT_Loss.xC1 = .ok v)
    ∧ SimCLR_TT_Loss.forward SimCLR_TT_Loss.cfgC9 2 1 SimCLR_TT_Loss.dotSim
        (fun _ => [1, 0]) SimCLR_TT_Loss.xC1 SimCLR_TT_Loss.xC1
      = SimCLR_TT_Loss.forward
          {SimCLR_TT_Loss.cfgC9 with N_negative := 0} 2 1
          SimCLR_TT_Loss.dotSim (fun _ => [1, 0]) SimCLR_TT_Loss.xC1
          SimCLR_TT_Loss.xC1 :=
  C9_cap_noop SimCLR_TT_Loss.cfgC9 2 1 SimCLR_TT_Loss.dotSim
    (fun _ => [1, 0]) SimCLR_TT_Loss.xC1 SimCLR_TT_Loss.xC1 rfl rfl rfl
    ((SimCLR_TT_Loss.dotSim_length _ _).trans rfl)
    (fun r hr => (SimCLR_TT_Loss.dotSim_rows _ _ r hr).trans rfl)
    (by norm_num) (by decide)
    (fun i _ => by
      show ([1, 0] : List Nat).Perm (List.range (2 * 2 - 2))
      decide)

/-- C7: the BYOL forward pass never invokes the similarity function stored
at construction: two instances built from any two similarity functions
return identical results on every input pair. -/
theorem C7_byol_ignores_sim_func {S : Type} (f g : S) {n d : Nat}
    (x x_pair : Fin n → Fin d → ℝ) :
    (BYOL_TT_Loss.mk f).forward x x_pair
      = (BYOL_TT_Loss.mk g).forward x x_pair := rfl

end

end Losses

